import Mathlib

/-!
Verification of the hard-clustering-and-AIC-scoring routine of the repository
(the function compute_aic in the notebook on optimizing Mapper parameters).

The embedding works over exact rationals for every discrete / rational
quantity (centroids, distances, the pooled variance sigma_sq) and over the
reals for the final AIC value, which involves natural logarithms and pi.
Python exceptions (IndexError from an out-of-range lookup, ValueError from
np.argmin applied to an empty list) are modelled by Option: a computation
that would raise returns none.  Where numpy would produce a non-finite
float with only a warning (division by zero in sigma_sq, log of a
non-positive number), the embedding keeps total functions and Lean's
division-by-zero and log-of-nonpositive junk values; the theorems record
explicitly where this matters.

Cell identifiers (Mapper node indices) are modelled as naturals: in the
notebook they are produced as indices 0 .. len(nodes)-1 into the node
table.
-/

namespace AicScore

/-- mapOpt f l runs f over the list from the left and fails (returns none)
as soon as one element fails.  It models a Python list comprehension in
which evaluating an element may raise an exception. -/
def mapOpt (f : α → Option β) : List α → Option (List β)
  | [] => some []
  | a :: as =>
    match f a with
    | none => none
    | some b =>
      match mapOpt f as with
      | none => none
      | some bs => some (b :: bs)

/-- dims X is the ambient dimension d read off from the first row, as in
N, d = X.shape.  An empty matrix gives the junk value 0 (a 0-row numpy
array of width d is not representable as a list of rows). -/
def dims (X : List (List ℚ)) : ℕ := (X.headD []).length

/-- distSq u v is the squared Euclidean distance between two vectors.
The source computes np.linalg.norm(u - v); since the square root is
strictly monotone on nonnegative reals, comparing and minimising the
squared distances is equivalent to comparing the norms, and keeps the
computation inside the rationals. -/
def distSq (u v : List ℚ) : ℚ := (List.zipWith (fun a b => (a - b) ^ 2) u v).sum

/-- vecAdd is coordinatewise addition of two vectors. -/
def vecAdd (u v : List ℚ) : List ℚ := List.zipWith (· + ·) u v

/-- meanRows d rows is np.mean(rows, axis=0) for a list of d-dimensional
rows: the coordinatewise sum divided by the number of rows.  For an empty
list of rows numpy emits nan with a warning; the embedding returns the
junk value 0 in each coordinate (division by zero in ℚ). -/
def meanRows (d : ℕ) (rows : List (List ℚ)) : List ℚ :=
  (rows.foldl vecAdd (List.replicate d 0)).map (fun x => x / (rows.length : ℚ))

/-- softCentroids X ne embeds step 1 of compute_aic:
centroids = np.array([np.mean(X[node_elements], axis=0) for node_elements in nodes_elements]).
Indexing X with an out-of-range point index raises IndexError, hence the
Option. -/
def softCentroids (X : List (List ℚ)) (ne : List (List ℕ)) : Option (List (List ℚ)) :=
  mapOpt (fun nes => (mapOpt (fun j => X.get? j) nes).map (meanRows (dims X))) ne

/-- argminAux rest best bestIdx curIdx is the tail of np.argmin: best is
the smallest value seen so far, bestIdx its index (the first index
attaining it, since the update uses a strict comparison), curIdx the index
of the head of rest. -/
def argminAux : List ℚ → ℚ → ℕ → ℕ → ℕ
  | [], _, bi, _ => bi
  | x :: xs, b, bi, ci => if x < b then argminAux xs x ci (ci + 1) else argminAux xs b bi (ci + 1)

/-- argminIdx l is np.argmin(l): the first index of the minimum of l, and
none on the empty list (np.argmin([]) raises ValueError). -/
def argminIdx : List ℚ → Option ℕ
  | [] => none
  | x :: xs => some (argminAux xs x 0 1)

/-- resolveLabel embeds the body of the labelling loop of compute_aic for
one point: if the candidate list has exactly one entry assign it directly,
otherwise pick the candidate whose centroid minimises the distance to the
point, first occurrence winning ties.  A candidate identifier that is out
of range of the centroid table makes the distance lookup raise
(IndexError), and an empty candidate list reaches np.argmin([]), which
raises ValueError; both are none here. -/
def resolveLabel (xi : List ℚ) (centroids : List (List ℚ)) (poss : List ℕ) : Option ℕ :=
  if poss.length = 1 then poss.head?
  else
    (mapOpt (fun nid => (centroids.get? nid).map (fun c => distSq xi c)) poss).bind fun dists =>
      (argminIdx dists).bind fun rel => poss.get? rel

/-- resolveLabels embeds the whole labelling loop (step 2.1 of
compute_aic), producing labels_unique.  Reading X_idx_to_node_idxs[i] for
a missing i raises IndexError (candidate map shorter than X); entries of
the candidate map beyond N are silently ignored, as in the source. -/
def resolveLabels (X : List (List ℚ)) (centroids : List (List ℚ))
    (cand : List (List ℕ)) : Option (List ℕ) :=
  mapOpt (fun i => (cand.get? i).bind (resolveLabel (X.getD i []) centroids))
    (List.range X.length)

/-- extendTo cs n pads the cluster list with fresh empty clusters up to
length n, embedding clusters += [[] for _ in range(to_add)] guarded by
to_add > 0 (truncated subtraction makes the guard implicit). -/
def extendTo (cs : List (List ℕ)) (n : ℕ) : List (List ℕ) :=
  cs ++ List.replicate (n - cs.length) []

/-- addPoint cs i lab embeds one iteration of the cluster-building loop:
grow the list so that index lab exists, then append point i to
clusters[lab]. -/
def addPoint (cs : List (List ℕ)) (i lab : ℕ) : List (List ℕ) :=
  (extendTo cs (lab + 1)).set lab ((extendTo cs (lab + 1)).getD lab [] ++ [i])

/-- insertAll i labels cs folds addPoint over the enumerated labels,
starting at point index i. -/
def insertAll : ℕ → List ℕ → List (List ℕ) → List (List ℕ)
  | _, [], cs => cs
  | i, lab :: rest, cs => insertAll (i + 1) rest (addPoint cs i lab)

/-- rawClusters labels is the cluster list right after the loop of step
2.2, before empty clusters are dropped: entry j collects, in order, the
points whose label is j. -/
def rawClusters (labels : List ℕ) : List (List ℕ) := insertAll 0 labels []

/-- buildClusters labels embeds step 2.2 of compute_aic completely:
clusters = [np.array(c) for c in clusters if c] keeps only the non-empty
clusters, in order of label value. -/
def buildClusters (labels : List ℕ) : List (List ℕ) :=
  (rawClusters labels).filter (fun c => !c.isEmpty)

/-- Stats packages every quantity compute_aic derives before the final
real-valued AIC expression: the sample count N, the ambient dimension d,
the resolved hard labels, the non-empty cluster sizes, their number k and
the pooled variance sigma_sq. -/
structure Stats where
  N : ℕ
  d : ℕ
  labels : List ℕ
  sizes : List ℕ
  k : ℕ
  sigma_sq : ℚ
deriving DecidableEq

/-- scoreStats embeds lines 84 to 96 of compute_aic as a function of the
data, the centroid table and the hard labels: cluster construction, k,
cluster_sizes, and sigma_sq = np.sum((X - centroids[labels_unique])**2) / (d * (N - k)).
The fancy indexing centroids[labels_unique] raises IndexError on an
out-of-range label, hence the Option; a zero denominator d * (N - k) is
numpy float division by zero (inf or nan with a warning), kept here as
the rational junk value 0. -/
def scoreStats (X : List (List ℚ)) (centroids : List (List ℚ))
    (labels : List ℕ) : Option Stats :=
  (mapOpt (fun lab => centroids.get? lab) labels).map fun sel =>
    ⟨X.length, dims X, labels, (buildClusters labels).map List.length,
      (buildClusters labels).length,
      (List.zipWith distSq X sel).sum /
        ((dims X : ℚ) * ((X.length : ℚ) - ((buildClusters labels).length : ℚ)))⟩

/-- computeStats is the whole discrete part of compute_aic: soft centroids
of all Mapper nodes, hard labels by nearest centroid, clusters and pooled
variance. -/
def computeStats (X : List (List ℚ)) (ne : List (List ℕ))
    (cand : List (List ℕ)) : Option Stats :=
  (softCentroids X ne).bind fun centroids =>
    (resolveLabels X centroids cand).bind fun labels =>
      scoreStats X centroids labels

/-- aicOf turns the statistics into the AIC value of step 3 of
compute_aic, with natural logarithms:
aic = 2 * sum_j n_j ln n_j - 2 N ln N - N d ln(2 pi sigma_sq) - d (N - k) - 2 k (d + 1). -/
noncomputable def aicOf (s : Stats) : ℝ :=
  2 * ((s.sizes.map (fun n : ℕ => (n : ℝ) * Real.log n)).sum)
    - 2 * s.N * Real.log s.N
    - s.N * s.d * Real.log (2 * Real.pi * (s.sigma_sq : ℝ))
    - s.d * ((s.N : ℝ) - (s.k : ℝ))
    - 2 * s.k * ((s.d : ℝ) + 1)

/-- score is the Scorer restricted to lines 84 to 103: the AIC of a given
hard labelling against a given centroid table. -/
noncomputable def score (X : List (List ℚ)) (centroids : List (List ℚ))
    (labels : List ℕ) : Option ℝ :=
  (scoreStats X centroids labels).map aicOf

/-- compute_aic is the full routine of the notebook. -/
noncomputable def compute_aic (X : List (List ℚ)) (ne : List (List ℕ))
    (cand : List (List ℕ)) : Option ℝ :=
  (computeStats X ne cand).map aicOf

/-- ValidInput collects the shape conditions the specification imposes on
the component inputs: the candidate map has one entry per data point, no
candidate list is empty, and every node's element list holds valid point
indices. -/
abbrev ValidInput (X : List (List ℚ)) (ne : List (List ℕ)) (cand : List (List ℕ)) : Prop :=
  cand.length = X.length ∧ (∀ c ∈ cand, c ≠ []) ∧
    ∀ nes ∈ ne, ∀ j ∈ nes, j < X.length

/-- IdsInRange states the unstated precondition of compute_aic that every
candidate identifier indexes into the node table. -/
abbrev IdsInRange (ne : List (List ℕ)) (cand : List (List ℕ)) : Prop :=
  ∀ c ∈ cand, ∀ id ∈ c, id < ne.length

/-- fiberFrom s labels j lists the positions (offset by s) of the
occurrences of label j. -/
def fiberFrom (s : ℕ) : List ℕ → ℕ → List ℕ
  | [], _ => []
  | l :: ls, j => if l = j then s :: fiberFrom (s + 1) ls j else fiberFrom (s + 1) ls j

/-! Definitions following the words of the specification, used to compare
the code against the spec where the two differ (the general
nearest-centroid rule without the single-candidate shortcut, and the
pooled variance computed from recomputed hard-partition centroids). -/

/-- resolveLabelGeneral is the general nearest-centroid-with-tie-break
rule of the spec, applied without the single-candidate shortcut. -/
def resolveLabelGeneral (xi : List ℚ) (centroids : List (List ℚ))
    (poss : List ℕ) : Option ℕ :=
  (mapOpt (fun nid => (centroids.get? nid).map (fun c => distSq xi c)) poss).bind fun dists =>
    (argminIdx dists).bind fun rel => poss.get? rel

/-- hardCentroid follows the spec words of section 4.2 step 1: the
centroid of cluster j recomputed from the hard partition, the mean of the
feature vectors of the points whose resolved label is j. -/
def hardCentroid (X : List (List ℚ)) (labels : List ℕ) (j : ℕ) : List ℚ :=
  meanRows (dims X) ((fiberFrom 0 labels j).map (fun i => X.getD i []))

/-- sigmaSqSpec follows the spec words of section 4.2 step 3: the sum
over all points of the squared Euclidean distance from the point to its
own hard cluster's recomputed centroid, divided by d * (N - k). -/
def sigmaSqSpec (X : List (List ℚ)) (labels : List ℕ) : ℚ :=
  ((List.range X.length).map (fun i =>
      distSq (X.getD i []) (hardCentroid X labels (labels.getD i 0)))).sum /
    ((dims X : ℚ) * ((X.length : ℚ) - ((buildClusters labels).length : ℚ)))


/-! Lemmas about mapOpt. -/

theorem mapOpt_eq_some_cons {f : α → Option β} {a : α} {as : List α} {b : β} {bs : List β}
    (ha : f a = some b) (has : mapOpt f as = some bs) :
    mapOpt f (a :: as) = some (b :: bs) := by
  simp [mapOpt, ha, has]

theorem mapOpt_length {f : α → Option β} : ∀ {l : List α} {ys : List β},
    mapOpt f l = some ys → ys.length = l.length := by
  intro l
  induction l with
  | nil => intro ys h; simp [mapOpt] at h; simp [← h]
  | cons a as ih =>
    intro ys h
    simp only [mapOpt] at h
    cases ha : f a with
    | none => rw [ha] at h; exact absurd h (by simp)
    | some b =>
      rw [ha] at h
      cases has : mapOpt f as with
      | none => rw [has] at h; exact absurd h (by simp)
      | some bs =>
        rw [has] at h
        simp at h
        simp [← h, List.length_cons, ih has]

theorem mapOpt_isSome {f : α → Option β} : ∀ {l : List α},
    (∀ a ∈ l, (f a).isSome) → ∃ ys, mapOpt f l = some ys := by
  intro l
  induction l with
  | nil => intro _; exact ⟨[], rfl⟩
  | cons a as ih =>
    intro h
    obtain ⟨b, hb⟩ := Option.isSome_iff_exists.mp (h a (by simp))
    obtain ⟨bs, hbs⟩ := ih (fun x hx => h x (by simp [hx]))
    exact ⟨b :: bs, mapOpt_eq_some_cons hb hbs⟩

theorem mapOpt_forall_isSome {f : α → Option β} : ∀ {l : List α} {ys : List β},
    mapOpt f l = some ys → ∀ a ∈ l, ∃ b, f a = some b := by
  intro l
  induction l with
  | nil => intro ys _ a ha; exact absurd ha (by simp)
  | cons a as ih =>
    intro ys h x hx
    simp only [mapOpt] at h
    cases ha : f a with
    | none => rw [ha] at h; exact absurd h (by simp)
    | some b =>
      rw [ha] at h
      cases has : mapOpt f as with
      | none => rw [has] at h; exact absurd h (by simp)
      | some bs =>
        rcases List.mem_cons.mp hx with rfl | hmem
        · exact ⟨b, ha⟩
        · exact ih has x hmem

theorem mapOpt_none_of_mem {f : α → Option β} : ∀ {l : List α},
    (∃ a ∈ l, f a = none) → mapOpt f l = none := by
  intro l
  induction l with
  | nil => intro ⟨a, ha, _⟩; exact absurd ha (by simp)
  | cons x xs ih =>
    intro ⟨a, ha, hnone⟩
    rcases List.mem_cons.mp ha with rfl | hmem
    · simp [mapOpt, hnone]
    · simp only [mapOpt]
      cases hx : f x with
      | none => rfl
      | some b => rw [ih ⟨a, hmem, hnone⟩]

theorem mapOpt_getD {f : α → Option β} (da : α) (db : β) : ∀ {l : List α} {ys : List β},
    mapOpt f l = some ys → ∀ i, i < l.length → f (l.getD i da) = some (ys.getD i db) := by
  intro l
  induction l with
  | nil => intro ys _ i hi; exact absurd hi (by simp)
  | cons a as ih =>
    intro ys h i hi
    simp only [mapOpt] at h
    cases ha : f a with
    | none => rw [ha] at h; exact absurd h (by simp)
    | some b =>
      rw [ha] at h
      cases has : mapOpt f as with
      | none => rw [has] at h; exact absurd h (by simp)
      | some bs =>
        rw [has] at h
        simp at h
        cases i with
        | zero => simpa [← h] using ha
        | succ n =>
          have hn : n < as.length := by simpa [Nat.succ_lt_succ_iff] using hi
          simpa [← h] using ih has n hn

theorem mapOpt_mem {f : α → Option β} : ∀ {l : List α} {ys : List β},
    mapOpt f l = some ys → ∀ b ∈ ys, ∃ a ∈ l, f a = some b := by
  intro l
  induction l with
  | nil => intro ys h b hb; simp [mapOpt] at h; subst h; exact absurd hb (by simp)
  | cons a as ih =>
    intro ys h b hb
    simp only [mapOpt] at h
    cases ha : f a with
    | none => rw [ha] at h; exact absurd h (by simp)
    | some b0 =>
      rw [ha] at h
      cases has : mapOpt f as with
      | none => rw [has] at h; exact absurd h (by simp)
      | some bs =>
        rw [has] at h
        simp at h
        subst h
        rcases List.mem_cons.mp hb with rfl | hmem
        · exact ⟨a, by simp, ha⟩
        · obtain ⟨x, hx, hfx⟩ := ih has b hmem
          exact ⟨x, by simp [hx], hfx⟩

theorem mapOpt_map {f : β → Option γ} {g : α → β} : ∀ (l : List α),
    mapOpt f (l.map g) = mapOpt (fun a => f (g a)) l := by
  intro l
  induction l with
  | nil => rfl
  | cons a as ih => simp only [List.map_cons, mapOpt, ih]

theorem mapOpt_congr {f g : α → Option β} : ∀ {l : List α},
    (∀ a ∈ l, f a = g a) → mapOpt f l = mapOpt g l := by
  intro l
  induction l with
  | nil => intro _; rfl
  | cons a as ih =>
    intro h
    simp only [mapOpt, h a (by simp), ih (fun x hx => h x (by simp [hx]))]

/-! Lemmas about the cluster-building loop.  The key characterization:
entry j of the raw cluster list is fiberFrom 0 labels j, the ordered list
of point indices whose label is j. -/

theorem extendTo_length (cs : List (List ℕ)) (n : ℕ) :
    (extendTo cs n).length = max cs.length n := by
  simp [extendTo]
  omega

theorem extendTo_getD (cs : List (List ℕ)) (n j : ℕ) :
    (extendTo cs n).getD j [] = cs.getD j [] := by
  simp only [extendTo, List.getD_eq_getElem?_getD, List.getElem?_append,
    List.getElem?_replicate]
  by_cases h : j < cs.length
  · simp [h]
  · simp only [if_neg h]
    rw [List.getElem?_eq_none (by omega)]
    by_cases h2 : j - cs.length < n - cs.length <;> simp [h2]

theorem addPoint_length (cs : List (List ℕ)) (i lab : ℕ) :
    (addPoint cs i lab).length = max cs.length (lab + 1) := by
  simp [addPoint, List.length_set, extendTo_length]

theorem addPoint_getD (cs : List (List ℕ)) (i lab j : ℕ) :
    (addPoint cs i lab).getD j [] =
      if lab = j then cs.getD lab [] ++ [i] else cs.getD j [] := by
  have hlen : lab < (extendTo cs (lab + 1)).length := by
    rw [extendTo_length]; omega
  by_cases h : lab = j
  · subst h
    rw [if_pos rfl, addPoint, List.getD_eq_getElem?_getD, List.getElem?_set,
      if_pos rfl, if_pos hlen, Option.getD_some, extendTo_getD]
  · rw [if_neg h, addPoint, List.getD_eq_getElem?_getD, List.getElem?_set, if_neg h,
      ← List.getD_eq_getElem?_getD, extendTo_getD]

theorem insertAll_getD : ∀ (ls : List ℕ) (s : ℕ) (cs : List (List ℕ)) (j : ℕ),
    (insertAll s ls cs).getD j [] = cs.getD j [] ++ fiberFrom s ls j := by
  intro ls
  induction ls with
  | nil => intro s cs j; simp [insertAll, fiberFrom]
  | cons l ls ih =>
    intro s cs j
    simp only [insertAll, fiberFrom, ih, addPoint_getD]
    by_cases h : l = j
    · subst h
      simp
    · simp [h]

theorem insertAll_length_le : ∀ (ls : List ℕ) (s : ℕ) (cs : List (List ℕ)),
    cs.length ≤ (insertAll s ls cs).length := by
  intro ls
  induction ls with
  | nil => intro s cs; exact le_refl _
  | cons l ls ih =>
    intro s cs
    calc cs.length ≤ (addPoint cs s l).length := by rw [addPoint_length]; omega
      _ ≤ _ := ih _ _

theorem lt_insertAll_length : ∀ (ls : List ℕ) (s : ℕ) (cs : List (List ℕ)) (l : ℕ),
    l ∈ ls → l < (insertAll s ls cs).length := by
  intro ls
  induction ls with
  | nil => intro s cs l h; exact absurd h (by simp)
  | cons x xs ih =>
    intro s cs l h
    rcases List.mem_cons.mp h with rfl | hmem
    · have h1 : l < (addPoint cs s l).length := by rw [addPoint_length]; omega
      exact lt_of_lt_of_le h1 (insertAll_length_le xs _ _)
    · exact ih _ _ l hmem

theorem rawClusters_getD (labels : List ℕ) (j : ℕ) :
    (rawClusters labels).getD j [] = fiberFrom 0 labels j := by
  rw [rawClusters, insertAll_getD]
  simp

theorem mem_fiberFrom : ∀ (labels : List ℕ) (s j i : ℕ),
    i ∈ fiberFrom s labels j ↔
      ∃ t, t < labels.length ∧ i = s + t ∧ labels.getD t 0 = j := by
  intro labels
  induction labels with
  | nil => intro s j i; simp [fiberFrom]
  | cons l ls ih =>
    intro s j i
    simp only [fiberFrom]
    split
    next h =>
      subst h
      rw [List.mem_cons, ih]
      constructor
      · rintro (rfl | ⟨t, ht, rfl, hget⟩)
        · exact ⟨0, by simp⟩
        · refine ⟨t + 1, by simpa using ht, by omega, by simpa using hget⟩
      · rintro ⟨t, ht, rfl, hget⟩
        cases t with
        | zero => left; omega
        | succ n =>
          right
          refine ⟨n, by simpa [Nat.succ_lt_succ_iff] using ht, by omega, by simpa using hget⟩
    next h =>
      rw [ih]
      constructor
      · rintro ⟨t, ht, rfl, hget⟩
        refine ⟨t + 1, by simpa using ht, by omega, by simpa using hget⟩
      · rintro ⟨t, ht, rfl, hget⟩
        cases t with
        | zero => simp at hget; exact absurd hget h
        | succ n =>
          refine ⟨n, by simpa [Nat.succ_lt_succ_iff] using ht, by omega, by simpa using hget⟩

theorem fiberFrom_length : ∀ (labels : List ℕ) (s j : ℕ),
    (fiberFrom s labels j).length = labels.count j := by
  intro labels
  induction labels with
  | nil => intro s j; simp [fiberFrom]
  | cons l ls ih =>
    intro s j
    simp only [fiberFrom, List.count_cons]
    by_cases h : l = j
    · subst h; simp [ih]
    · simp [h, ih]

theorem fiberFrom_ne_nil_iff (labels : List ℕ) (s j : ℕ) :
    (fiberFrom s labels j).isEmpty = false ↔ j ∈ labels := by
  rw [← List.count_pos_iff, ← fiberFrom_length labels s j]
  cases h : fiberFrom s labels j <;> simp [h]

theorem fiberFrom_ne_nil {L : List ℕ} (s : ℕ) {j : ℕ} (hj : j ∈ L) :
    fiberFrom s L j ≠ [] := by
  have h := (fiberFrom_ne_nil_iff L s j).mpr hj
  intro hx
  rw [hx] at h
  simp at h

theorem sum_lengths_filter (cs : List (List ℕ)) :
    ((cs.filter (fun c => !c.isEmpty)).map List.length).sum = (cs.map List.length).sum := by
  induction cs with
  | nil => rfl
  | cons c cs ih =>
    by_cases h : c.isEmpty
    · have hc : c = [] := List.isEmpty_iff.mp h
      subst hc
      simpa using ih
    · simp [List.filter_cons, h, ih]

theorem sum_map_getD (cs : List (List ℕ)) :
    (cs.map List.length).sum = ∑ j ∈ Finset.range cs.length, (cs.getD j []).length := by
  induction cs with
  | nil => simp
  | cons c cs ih =>
    rw [List.length_cons, Finset.sum_range_succ']
    simp only [List.getD_cons_succ, List.getD_cons_zero, List.map_cons, List.sum_cons, ih]
    omega

theorem sum_count (L : List ℕ) (n : ℕ) (h : ∀ l ∈ L, l < n) :
    ∑ j ∈ Finset.range n, L.count j = L.length := by
  induction L with
  | nil => simp
  | cons l L ih =>
    have hl : l ∈ Finset.range n := Finset.mem_range.mpr (h l (by simp))
    have hrec := ih (fun x hx => h x (by simp [hx]))
    simp only [List.count_cons, beq_iff_eq, Finset.sum_add_distrib, hrec]
    rw [Finset.sum_ite_eq (Finset.range n) l (fun _ => 1), if_pos hl, List.length_cons]

theorem buildClusters_sizes_sum (L : List ℕ) :
    ((buildClusters L).map List.length).sum = L.length := by
  rw [buildClusters, sum_lengths_filter, sum_map_getD]
  have h : ∀ j, ((rawClusters L).getD j []).length = L.count j := by
    intro j
    rw [rawClusters_getD, fiberFrom_length]
  simp only [h]
  exact sum_count L _ (fun l hl => lt_insertAll_length L 0 [] l hl)

theorem ne_nil_of_mem_buildClusters {L : List ℕ} {c : List ℕ}
    (h : c ∈ buildClusters L) : c ≠ [] := by
  have := (List.mem_filter.mp h).2
  intro hc
  subst hc
  simp at this

theorem length_le_sum_lengths {cs : List (List ℕ)} (h : ∀ c ∈ cs, c ≠ []) :
    cs.length ≤ (cs.map List.length).sum := by
  induction cs with
  | nil => simp
  | cons c cs ih =>
    have hc : 1 ≤ c.length := by
      have := h c (by simp)
      cases c with
      | nil => exact absurd rfl this
      | cons x xs => simp
    have := ih (fun x hx => h x (by simp [hx]))
    simp only [List.length_cons, List.map_cons, List.sum_cons]
    omega

theorem buildClusters_length_le (L : List ℕ) :
    (buildClusters L).length ≤ L.length := by
  calc (buildClusters L).length
      ≤ ((buildClusters L).map List.length).sum :=
        length_le_sum_lengths (fun c hc => ne_nil_of_mem_buildClusters hc)
    _ = L.length := buildClusters_sizes_sum L

theorem buildClusters_length_pos {L : List ℕ} (h : L ≠ []) :
    0 < (buildClusters L).length := by
  by_contra hk
  have hnil : buildClusters L = [] := by
    cases hb : buildClusters L with
    | nil => rfl
    | cons c cs => rw [hb] at hk; simp at hk
  have := buildClusters_sizes_sum L
  rw [hnil] at this
  simp at this
  exact h (List.eq_nil_of_length_eq_zero this.symm)

theorem rawClusters_eq_map (L : List ℕ) :
    rawClusters L = (List.range (rawClusters L).length).map (fun j => fiberFrom 0 L j) := by
  apply List.ext_getElem (by simp)
  intro j h1 h2
  rw [List.getElem_map, List.getElem_range, ← List.getD_eq_getElem _ [] h1,
    rawClusters_getD]

theorem buildClusters_eq_map (L : List ℕ) :
    buildClusters L = ((List.range (rawClusters L).length).filter
      (fun j => !(fiberFrom 0 L j).isEmpty)).map (fun j => fiberFrom 0 L j) := by
  conv_lhs => rw [buildClusters, rawClusters_eq_map L]
  rw [List.filter_map]
  rfl

theorem pairwise_disjoint_buildClusters (L : List ℕ) :
    List.Pairwise (fun c c2 => ∀ i ∈ c, i ∉ c2) (buildClusters L) := by
  have hraw : List.Pairwise (fun c c2 => ∀ i ∈ c, i ∉ c2) (rawClusters L) := by
    rw [rawClusters_eq_map L, List.pairwise_map]
    apply (List.pairwise_lt_range _).imp
    intro j j2 hlt i hij hij2
    rw [mem_fiberFrom] at hij hij2
    obtain ⟨t, ht, rfl, hget⟩ := hij
    obtain ⟨t2, ht2, heq, hget2⟩ := hij2
    have ht12 : t = t2 := by omega
    subst ht12
    rw [hget] at hget2
    omega
  exact List.Pairwise.sublist (List.filter_sublist _) hraw

/-! Permutation of the cluster list under an injective renaming of the
label values. -/

theorem fiberFrom_map_eq {ρ : ℕ → ℕ} : ∀ {L : List ℕ} (s : ℕ) {j : ℕ},
    (∀ l ∈ L, ρ l = ρ j → l = j) →
      fiberFrom s (L.map ρ) (ρ j) = fiberFrom s L j := by
  intro L
  induction L with
  | nil => intro s j _; rfl
  | cons l ls ih =>
    intro s j h
    by_cases hl : l = j
    · subst hl
      simp only [List.map_cons, fiberFrom, if_pos rfl]
      rw [ih (s + 1) (fun x hx hρ => h x (by simp [hx]) hρ)]
    · have hne : ρ l ≠ ρ j := fun hρ => hl (h l (by simp) hρ)
      simp only [List.map_cons, fiberFrom, if_neg hne, if_neg hl]
      rw [ih (s + 1) (fun x hx hρ => h x (by simp [hx]) hρ)]

theorem buildClusters_map_perm {L : List ℕ} {ρ : ℕ → ℕ}
    (hinj : ∀ a ∈ L, ∀ b ∈ L, ρ a = ρ b → a = b) :
    (buildClusters (L.map ρ)).Perm (buildClusters L) := by
  have hSmem : ∀ j, j ∈ (List.range (rawClusters L).length).filter
      (fun j => !(fiberFrom 0 L j).isEmpty) ↔ j ∈ L := by
    intro j
    rw [List.mem_filter]
    constructor
    · rintro ⟨-, hp⟩
      exact (fiberFrom_ne_nil_iff L 0 j).mp (by simpa using hp)
    · intro hj
      refine ⟨List.mem_range.mpr (lt_insertAll_length L 0 [] j hj), ?_⟩
      simpa using fiberFrom_ne_nil 0 hj
  have hTmem : ∀ j, j ∈ (List.range (rawClusters (L.map ρ)).length).filter
      (fun j => !(fiberFrom 0 (L.map ρ) j).isEmpty) ↔ j ∈ L.map ρ := by
    intro j
    rw [List.mem_filter]
    constructor
    · rintro ⟨-, hp⟩
      exact (fiberFrom_ne_nil_iff (L.map ρ) 0 j).mp (by simpa using hp)
    · intro hj
      refine ⟨List.mem_range.mpr (lt_insertAll_length (L.map ρ) 0 [] j hj), ?_⟩
      simpa using fiberFrom_ne_nil 0 hj
  have hndS : ((List.range (rawClusters L).length).filter
      (fun j => !(fiberFrom 0 L j).isEmpty)).Nodup :=
    (List.nodup_range _).filter _
  have hndT : ((List.range (rawClusters (L.map ρ)).length).filter
      (fun j => !(fiberFrom 0 (L.map ρ) j).isEmpty)).Nodup :=
    (List.nodup_range _).filter _
  have hndSρ : (((List.range (rawClusters L).length).filter
      (fun j => !(fiberFrom 0 L j).isEmpty)).map ρ).Nodup :=
    hndS.map_on (fun x hx y hy hxy =>
      hinj x ((hSmem x).mp hx) y ((hSmem y).mp hy) hxy)
  have hmemTρ : ∀ j, j ∈ (List.range (rawClusters (L.map ρ)).length).filter
      (fun j => !(fiberFrom 0 (L.map ρ) j).isEmpty) ↔
      j ∈ ((List.range (rawClusters L).length).filter
        (fun j => !(fiberFrom 0 L j).isEmpty)).map ρ := by
    intro j
    rw [hTmem, List.mem_map, List.mem_map]
    constructor
    · rintro ⟨a, ha, rfl⟩
      exact ⟨a, (hSmem a).mpr ha, rfl⟩
    · rintro ⟨a, ha, rfl⟩
      exact ⟨a, (hSmem a).mp ha, rfl⟩
  have hperm : ((List.range (rawClusters (L.map ρ)).length).filter
      (fun j => !(fiberFrom 0 (L.map ρ) j).isEmpty)).Perm
      (((List.range (rawClusters L).length).filter
        (fun j => !(fiberFrom 0 L j).isEmpty)).map ρ) := by
    rw [List.perm_iff_count]
    intro a
    by_cases ha : a ∈ (List.range (rawClusters (L.map ρ)).length).filter
        (fun j => !(fiberFrom 0 (L.map ρ) j).isEmpty)
    · rw [List.count_eq_one_of_mem hndT ha,
        List.count_eq_one_of_mem hndSρ ((hmemTρ a).mp ha)]
    · rw [List.count_eq_zero_of_not_mem ha,
        List.count_eq_zero_of_not_mem (fun hmem => ha ((hmemTρ a).mpr hmem))]
  rw [buildClusters_eq_map (L.map ρ), buildClusters_eq_map L]
  calc ((List.range (rawClusters (L.map ρ)).length).filter
      (fun j => !(fiberFrom 0 (L.map ρ) j).isEmpty)).map (fun j => fiberFrom 0 (L.map ρ) j)
      |>.Perm ((((List.range (rawClusters L).length).filter
        (fun j => !(fiberFrom 0 L j).isEmpty)).map ρ).map (fun j => fiberFrom 0 (L.map ρ) j)) :=
        hperm.map _
    _ = ((List.range (rawClusters L).length).filter
        (fun j => !(fiberFrom 0 L j).isEmpty)).map (fun j => fiberFrom 0 L j) := by
        rw [List.map_map]
        apply List.map_congr_left
        intro j hj
        have hjL : j ∈ L := (hSmem j).mp hj
        exact fiberFrom_map_eq 0 (fun l hl hρ => hinj l hl j hjL hρ)

/-! Lemmas about argminIdx: np.argmin returns the first index attaining
the minimum, and that index is within bounds. -/

theorem argminAux_of_forall_le {xs : List ℚ} {b : ℚ} {bi ci : ℕ}
    (h : ∀ x ∈ xs, b ≤ x) : argminAux xs b bi ci = bi := by
  induction xs generalizing ci with
  | nil => rfl
  | cons x xs ih =>
    have hx : ¬ x < b := not_lt.mpr (h x (by simp))
    simp only [argminAux, if_neg hx]
    exact ih (fun y hy => h y (by simp [hy]))

theorem argminAux_first {xs : List ℚ} {b : ℚ} {bi ci : ℕ} {j : ℕ}
    (hj : j < xs.length) (hlt : xs.getD j 0 < b)
    (hmin : ∀ j2, j2 < xs.length → xs.getD j 0 ≤ xs.getD j2 0)
    (hfirst : ∀ j2 < j, xs.getD j 0 < xs.getD j2 0) :
    argminAux xs b bi ci = ci + j := by
  induction xs generalizing b bi ci j with
  | nil => exact absurd hj (by simp)
  | cons x xs ih =>
    cases j with
    | zero =>
      simp only [List.getD_cons_zero] at hlt hmin
      simp only [argminAux, if_pos hlt]
      have hle : ∀ y ∈ xs, x ≤ y := by
        intro y hy
        obtain ⟨j2, hj2, rfl⟩ := List.mem_iff_getElem.mp hy
        have := hmin (j2 + 1) (by simpa [Nat.succ_lt_succ_iff] using hj2)
        simpa [List.getD_cons_succ, List.getD_eq_getElem?_getD,
          List.getElem?_eq_getElem hj2] using this
      simpa using argminAux_of_forall_le hle
    | succ n =>
      have hn : n < xs.length := by simpa [Nat.succ_lt_succ_iff] using hj
      have hgx : xs.getD n 0 < x := by
        simpa [List.getD_cons_succ, List.getD_cons_zero] using hfirst 0 (Nat.succ_pos n)
      have hmin2 : ∀ j2, j2 < xs.length → xs.getD n 0 ≤ xs.getD j2 0 := by
        intro j2 hj2
        simpa [List.getD_cons_succ] using hmin (j2 + 1) (by simpa [Nat.succ_lt_succ_iff] using hj2)
      have hfirst2 : ∀ j2 < n, xs.getD n 0 < xs.getD j2 0 := by
        intro j2 hj2
        simpa [List.getD_cons_succ] using hfirst (j2 + 1) (by simpa [Nat.succ_lt_succ_iff] using hj2)
      simp only [List.getD_cons_succ] at hlt
      by_cases hxb : x < b
      · simp only [argminAux, if_pos hxb]
        rw [ih hn hgx hmin2 hfirst2]
        omega
      · simp only [argminAux, if_neg hxb]
        rw [ih hn hlt hmin2 hfirst2]
        omega

theorem argminIdx_first {l : List ℚ} {i : ℕ} (hi : i < l.length)
    (hmin : ∀ j, j < l.length → l.getD i 0 ≤ l.getD j 0)
    (hfirst : ∀ j < i, l.getD i 0 < l.getD j 0) :
    argminIdx l = some i := by
  cases l with
  | nil => exact absurd hi (by simp)
  | cons x xs =>
    simp only [argminIdx, Option.some_inj]
    cases i with
    | zero =>
      apply argminAux_of_forall_le
      intro y hy
      obtain ⟨j2, hj2, rfl⟩ := List.mem_iff_getElem.mp hy
      have := hmin (j2 + 1) (by simpa [Nat.succ_lt_succ_iff] using hj2)
      simpa [List.getD_cons_succ, List.getD_cons_zero, List.getD_eq_getElem?_getD,
        List.getElem?_eq_getElem hj2] using this
    | succ n =>
      have hn : n < xs.length := by simpa [Nat.succ_lt_succ_iff] using hi
      have hlt : xs.getD n 0 < x := by
        simpa [List.getD_cons_succ, List.getD_cons_zero] using hfirst 0 (Nat.succ_pos n)
      have hmin2 : ∀ j2, j2 < xs.length → xs.getD n 0 ≤ xs.getD j2 0 := by
        intro j2 hj2
        simpa [List.getD_cons_succ] using hmin (j2 + 1) (by simpa [Nat.succ_lt_succ_iff] using hj2)
      have hfirst2 : ∀ j2 < n, xs.getD n 0 < xs.getD j2 0 := by
        intro j2 hj2
        simpa [List.getD_cons_succ] using hfirst (j2 + 1) (by simpa [Nat.succ_lt_succ_iff] using hj2)
      have h := @argminAux_first xs x 0 1 n hn hlt hmin2 hfirst2
      rw [h]
      omega

theorem argminAux_lt {xs : List ℚ} {b : ℚ} {bi ci : ℕ} :
    argminAux xs b bi ci < max (bi + 1) (ci + xs.length) := by
  induction xs generalizing b bi ci with
  | nil => simp [argminAux]
  | cons x xs ih =>
    simp only [argminAux]
    by_cases hxb : x < b
    · simp only [if_pos hxb]
      have := @ih x ci (ci + 1)
      have h2 : max (ci + 1) (ci + 1 + xs.length) ≤ max (bi + 1) (ci + (x :: xs).length) := by
        simp only [List.length_cons]; omega
      omega
    · simp only [if_neg hxb]
      have := @ih b bi (ci + 1)
      have h2 : max (bi + 1) (ci + 1 + xs.length) ≤ max (bi + 1) (ci + (x :: xs).length) := by
        simp only [List.length_cons]; omega
      omega

theorem argminIdx_lt_length {l : List ℚ} {r : ℕ} (h : argminIdx l = some r) :
    r < l.length := by
  cases l with
  | nil => exact absurd h (by simp [argminIdx])
  | cons x xs =>
    simp only [argminIdx, Option.some_inj] at h
    have := @argminAux_lt xs x 0 1
    simp only [List.length_cons]
    omega

/-! Inversion and totality lemmas for the stages of compute_aic. -/

theorem computeStats_eq_some {X : List (List ℚ)} {ne cand : List (List ℕ)} {s : Stats} :
    computeStats X ne cand = some s ↔
      ∃ centroids labels, softCentroids X ne = some centroids ∧
        resolveLabels X centroids cand = some labels ∧
        scoreStats X centroids labels = some s := by
  simp [computeStats, Option.bind_eq_some]

theorem scoreStats_eq_some {X : List (List ℚ)} {centroids : List (List ℚ)}
    {labels : List ℕ} {s : Stats} :
    scoreStats X centroids labels = some s ↔
      ∃ sel, mapOpt (fun lab => centroids.get? lab) labels = some sel ∧
        s = ⟨X.length, dims X, labels, (buildClusters labels).map List.length,
          (buildClusters labels).length,
          (List.zipWith distSq X sel).sum /
            ((dims X : ℚ) * ((X.length : ℚ) - ((buildClusters labels).length : ℚ)))⟩ := by
  simp only [scoreStats, Option.map_eq_some']
  constructor
  · rintro ⟨sel, hsel, rfl⟩
    exact ⟨sel, hsel, rfl⟩
  · rintro ⟨sel, hsel, rfl⟩
    exact ⟨sel, hsel, rfl⟩

theorem resolveLabels_length {X : List (List ℚ)} {centroids : List (List ℚ)}
    {cand : List (List ℕ)} {labels : List ℕ}
    (h : resolveLabels X centroids cand = some labels) : labels.length = X.length := by
  simpa using mapOpt_length h

theorem resolveLabels_getD {X : List (List ℚ)} {centroids : List (List ℚ)}
    {cand : List (List ℕ)} {labels : List ℕ}
    (h : resolveLabels X centroids cand = some labels) {i : ℕ} (hi : i < X.length) :
    (cand.get? i).bind (resolveLabel (X.getD i []) centroids) = some (labels.getD i 0) := by
  have hr := mapOpt_getD 0 0 h i (by simpa using hi)
  rwa [List.getD_eq_getElem (List.range X.length) 0 (by simpa using hi),
    List.getElem_range] at hr

theorem resolveLabel_mem {xi : List ℚ} {centroids : List (List ℚ)}
    {poss : List ℕ} {lab : ℕ} (h : resolveLabel xi centroids poss = some lab) :
    lab ∈ poss := by
  rw [resolveLabel] at h
  split at h
  · exact List.mem_of_mem_head? (by rw [h]; exact Option.mem_some_iff.mpr rfl)
  · rw [Option.bind_eq_some] at h
    obtain ⟨dists, -, h⟩ := h
    rw [Option.bind_eq_some] at h
    obtain ⟨rel, -, h⟩ := h
    exact List.get?_mem h

theorem argminIdx_isSome {l : List ℚ} (h : l ≠ []) : ∃ r, argminIdx l = some r := by
  cases l with
  | nil => exact absurd rfl h
  | cons x xs => exact ⟨argminAux xs x 0 1, rfl⟩

theorem resolveLabel_isSome {xi : List ℚ} {centroids : List (List ℚ)}
    {poss : List ℕ} (hposs : poss ≠ [])
    (hids : ∀ id ∈ poss, id < centroids.length) :
    ∃ lab, resolveLabel xi centroids poss = some lab := by
  rw [resolveLabel]
  split
  · cases poss with
    | nil => exact absurd rfl hposs
    | cons p ps => exact ⟨p, rfl⟩
  · have hsome : ∀ id ∈ poss, ((centroids.get? id).map (fun c => distSq xi c)).isSome := by
      intro id hid
      rw [List.get?_eq_get (hids id hid)]
      rfl
    obtain ⟨dists, hdists⟩ := mapOpt_isSome hsome
    have hlen : dists.length = poss.length := mapOpt_length hdists
    have hdne : dists ≠ [] := by
      intro hd
      rw [hd] at hlen
      exact hposs (List.eq_nil_of_length_eq_zero hlen.symm)
    obtain ⟨r, hr⟩ := argminIdx_isSome hdne
    have hrlt : r < poss.length := hlen ▸ argminIdx_lt_length hr
    refine ⟨poss.get ⟨r, hrlt⟩, ?_⟩
    rw [hdists, Option.bind_eq_some]
    refine ⟨dists, rfl, ?_⟩
    rw [hr, Option.bind_eq_some]
    exact ⟨r, rfl, List.get?_eq_get hrlt⟩

theorem softCentroids_isSome {X : List (List ℚ)} {ne : List (List ℕ)}
    (h : ∀ nes ∈ ne, ∀ j ∈ nes, j < X.length) :
    ∃ centroids, softCentroids X ne = some centroids := by
  apply mapOpt_isSome
  intro nes hnes
  obtain ⟨rows, hrows⟩ := mapOpt_isSome (fun j hj =>
    Option.isSome_iff_exists.mpr ⟨_, List.get?_eq_get (h nes hnes j hj)⟩)
  rw [hrows]
  rfl

theorem softCentroids_length {X : List (List ℚ)} {ne : List (List ℕ)}
    {centroids : List (List ℚ)} (h : softCentroids X ne = some centroids) :
    centroids.length = ne.length := mapOpt_length h

theorem computeStats_isSome {X : List (List ℚ)} {ne cand : List (List ℕ)}
    (hv : ValidInput X ne cand) (hid : IdsInRange ne cand) :
    ∃ s, computeStats X ne cand = some s := by
  obtain ⟨hlen, hne, hnodes⟩ := hv
  obtain ⟨centroids, hcent⟩ := softCentroids_isSome hnodes
  have hclen : centroids.length = ne.length := softCentroids_length hcent
  have hlab : ∃ labels, resolveLabels X centroids cand = some labels := by
    apply mapOpt_isSome
    intro i hi
    have hi2 : i < cand.length := by
      rw [hlen]
      simpa using hi
    have hget : cand.get? i = some (cand.get ⟨i, hi2⟩) := List.get?_eq_get hi2
    have hmem : cand.get ⟨i, hi2⟩ ∈ cand := List.get_mem cand i hi2
    obtain ⟨lab, hl⟩ := @resolveLabel_isSome (X.getD i []) centroids (cand.get ⟨i, hi2⟩)
      (hne _ hmem) (fun id hidm => hclen ▸ hid _ hmem id hidm)
    rw [hget]
    exact Option.isSome_iff_exists.mpr ⟨lab, hl⟩
  obtain ⟨labels, hlabels⟩ := hlab
  have hsel : ∃ sel, mapOpt (fun lab => centroids.get? lab) labels = some sel := by
    apply mapOpt_isSome
    intro lab hmemlab
    obtain ⟨i, hi, hfi⟩ := mapOpt_mem hlabels lab hmemlab
    rw [Option.bind_eq_some] at hfi
    obtain ⟨poss, hposs, hres⟩ := hfi
    have hpossmem : poss ∈ cand := List.get?_mem hposs
    have hlabmem : lab ∈ poss := resolveLabel_mem hres
    exact Option.isSome_iff_exists.mpr
      ⟨_, List.get?_eq_get (hclen ▸ hid poss hpossmem lab hlabmem)⟩
  obtain ⟨sel, hselv⟩ := hsel
  refine ⟨⟨X.length, dims X, labels, (buildClusters labels).map List.length,
    (buildClusters labels).length,
    (List.zipWith distSq X sel).sum /
      ((dims X : ℚ) * ((X.length : ℚ) - ((buildClusters labels).length : ℚ)))⟩, ?_⟩
  exact computeStats_eq_some.mpr
    ⟨centroids, labels, hcent, hlabels, scoreStats_eq_some.mpr ⟨sel, hselv, rfl⟩⟩

theorem computeStats_none_of_badId {X : List (List ℚ)} {ne cand : List (List ℕ)}
    {i id : ℕ} (hi : i < X.length) (hidmem : id ∈ cand.getD i [])
    (hbad : ne.length ≤ id) : computeStats X ne cand = none := by
  by_contra hcontra
  obtain ⟨s, hs⟩ := Option.ne_none_iff_exists'.mp hcontra
  obtain ⟨centroids, labels, hcent, hlabels, hscore⟩ := computeStats_eq_some.mp hs
  have hclen : centroids.length = ne.length := softCentroids_length hcent
  have hget := resolveLabels_getD hlabels hi
  rw [Option.bind_eq_some] at hget
  obtain ⟨poss, hposs, hres⟩ := hget
  have hpossD : cand.getD i [] = poss := by
    rw [List.getD_eq_getElem?_getD, ← List.get?_eq_getElem?, hposs]
    rfl
  rw [hpossD] at hidmem
  rw [resolveLabel] at hres
  by_cases hlen1 : poss.length = 1
  · rw [if_pos hlen1] at hres
    have hlab : labels.getD i 0 = id := by
      cases poss with
      | nil => simp at hlen1
      | cons p ps =>
        have hps : ps = [] := by
          simpa [List.length_eq_zero] using hlen1
        subst hps
        rw [List.head?_cons, Option.some_inj] at hres
        rw [List.mem_singleton] at hidmem
        omega
    have hmemlab : labels.getD i 0 ∈ labels := by
      have hilen : i < labels.length := by
        rw [resolveLabels_length hlabels]
        exact hi
      rw [List.getD_eq_getElem _ _ hilen]
      exact List.getElem_mem hilen
    obtain ⟨sel, hsel, -⟩ := scoreStats_eq_some.mp hscore
    obtain ⟨v, hv⟩ := mapOpt_forall_isSome hsel _ hmemlab
    rw [hlab] at hv
    have hidlt : id < centroids.length := by
      by_contra hge
      rw [List.get?_eq_none.mpr (by omega)] at hv
      exact absurd hv (by simp)
    omega
  · rw [if_neg hlen1, Option.bind_eq_some] at hres
    obtain ⟨dists, hdists, -⟩ := hres
    obtain ⟨v, hv⟩ := mapOpt_forall_isSome hdists id hidmem
    rw [Option.map_eq_some'] at hv
    obtain ⟨c, hc, -⟩ := hv
    have hidlt : id < centroids.length := by
      by_contra hge
      rw [List.get?_eq_none.mpr (by omega)] at hc
      exact absurd hc (by simp)
    omega

theorem zipWith_distSq_sum : ∀ (X sel : List (List ℚ)), X.length = sel.length →
    (List.zipWith distSq X sel).sum =
      ∑ i ∈ Finset.range X.length, distSq (X.getD i []) (sel.getD i []) := by
  intro X
  induction X with
  | nil => intro sel _; simp
  | cons x X ih =>
    intro sel h
    cases sel with
    | nil => simp at h
    | cons v sel =>
      rw [List.zipWith_cons_cons, List.sum_cons, List.length_cons, Finset.sum_range_succ']
      simp only [List.getD_cons_succ, List.getD_cons_zero]
      rw [ih sel (by simpa using h)]
      exact add_comm _ _

theorem scoreStats_sigma_sq {X : List (List ℚ)} {centroids : List (List ℚ)}
    {labels : List ℕ} {s : Stats}
    (h : scoreStats X centroids labels = some s) (hlen : labels.length = X.length) :
    s.sigma_sq = (∑ i ∈ Finset.range X.length,
        distSq (X.getD i []) (centroids.getD (labels.getD i 0) [])) /
      ((dims X : ℚ) * ((X.length : ℚ) - (s.k : ℚ))) := by
  obtain ⟨sel, hsel, rfl⟩ := scoreStats_eq_some.mp h
  have hsellen : sel.length = labels.length := mapOpt_length hsel
  show (List.zipWith distSq X sel).sum / _ = _
  rw [zipWith_distSq_sum X sel (by omega)]
  congr 1
  apply Finset.sum_congr rfl
  intro i hi
  have hi2 : i < labels.length := by
    rw [hlen]
    exact Finset.mem_range.mp hi
  have hgi := mapOpt_getD 0 ([] : List ℚ) hsel i hi2
  rw [List.getD_eq_getElem?_getD centroids, ← List.get?_eq_getElem?, hgi]
  rfl

/-- Claim C8 (amended): renaming the label values through a map that is
injective on the labels in use keeps k, the multiset of cluster sizes and
the AIC unchanged provided the centroid table is re-indexed along the
same renaming (the table lookup of line 96 uses the raw label value as
the index).  With the table held fixed, sigma_sq and hence the AIC change
in general; see the counterexample. -/
theorem C8_relabel_consistent {X : List (List ℚ)} {centroids centroids2 : List (List ℚ)}
    {L : List ℕ} {ρ : ℕ → ℕ}
    (hinj : ∀ a ∈ L, ∀ b ∈ L, ρ a = ρ b → a = b)
    (hc : ∀ l ∈ L, centroids2.get? (ρ l) = centroids.get? l) :
    score X centroids2 (L.map ρ) = score X centroids L := by
  have hsel : mapOpt (fun lab => centroids2.get? lab) (L.map ρ) =
      mapOpt (fun lab => centroids.get? lab) L := by
    rw [mapOpt_map]
    exact mapOpt_congr hc
  have hperm := buildClusters_map_perm hinj
  have hk : (buildClusters (L.map ρ)).length = (buildClusters L).length :=
    hperm.length_eq
  have hsum : (((buildClusters (L.map ρ)).map List.length).map
        (fun n : ℕ => (n : ℝ) * Real.log n)).sum =
      (((buildClusters L).map List.length).map (fun n : ℕ => (n : ℝ) * Real.log n)).sum :=
    ((hperm.map List.length).map _).sum_eq
  rw [score, score, scoreStats, scoreStats, hsel]
  cases hv : mapOpt (fun lab => centroids.get? lab) L with
  | none => rfl
  | some sel =>
    simp only [Option.map_some', Option.some_inj, aicOf, List.length_map, hk, hsum]

/-! Claim theorems. -/

/-- Claim C3, counterexample: at the spec's own concrete scenario 1
(X = [[0],[0],[10],[10]] with candidate cells [[0],[0],[1],[1]]) the
pooled variance is 0, a case the claim says must fail with a
DegenerateClustering error; but compute_aic raises nothing and returns a
value (in the floating-point original, log(0) yields -inf with only a
warning, so the function returns a non-finite float instead of failing). -/
theorem C3_counterexample :
    computeStats [[0], [0], [10], [10]] [[0, 1], [2, 3]] [[0], [0], [1], [1]] =
      some ⟨4, 1, [0, 0, 1, 1], [2, 2], 2, 0⟩ ∧
    (compute_aic [[0], [0], [10], [10]] [[0, 1], [2, 3]] [[0], [0], [1], [1]]).isSome
      = true := by
  have h : computeStats [[0], [0], [10], [10]] [[0, 1], [2, 3]] [[0], [0], [1], [1]] =
      some ⟨4, 1, [0, 0, 1, 1], [2, 2], 2, 0⟩ := by
    norm_num [computeStats, softCentroids, resolveLabels, scoreStats, mapOpt, dims,
      meanRows, vecAdd, distSq, resolveLabel, argminIdx, argminAux, buildClusters,
      rawClusters, insertAll, addPoint, extendTo, List.range_succ]
  exact ⟨h, by rw [compute_aic, h]; rfl⟩

/-- Claim C3 (amended): the Scorer never raises a degeneracy error.  On
every input with matching lengths, non-empty candidate lists, valid node
element indices and in-range candidate identifiers it returns a value,
including when N - k is zero or negative or sigma_sq is zero (where the
original produces non-finite floats, and this embedding the corresponding
junk values). -/
theorem C3_no_error {X : List (List ℚ)} {ne cand : List (List ℕ)}
    (hv : ValidInput X ne cand) (hid : IdsInRange ne cand) :
    (compute_aic X ne cand).isSome = true := by
  obtain ⟨s, hs⟩ := computeStats_isSome hv hid
  rw [compute_aic, hs]
  rfl

/-- Claim C3, witness for the amended theorem at scenario 2. -/
theorem C3_witness :
    (compute_aic [[0], [1], [9], [10]] [[0, 1], [2, 3]] [[0], [0], [1], [1]]).isSome
      = true :=
  C3_no_error (by decide) (by decide)

/-- Claim C4, counterexample: an empty input (N = 0) is not rejected with
an InvalidInput error; compute_aic processes it and returns a value. -/
theorem C4_counterexample :
    computeStats ([] : List (List ℚ)) [] [] = some ⟨0, 0, [], [], 0, 0⟩ ∧
    (compute_aic ([] : List (List ℚ)) [] []).isSome = true := by
  have h : computeStats ([] : List (List ℚ)) [] [] = some ⟨0, 0, [], [], 0, 0⟩ := by
    norm_num [computeStats, softCentroids, resolveLabels, scoreStats, mapOpt, dims,
      buildClusters, rawClusters, insertAll]
  exact ⟨h, by rw [compute_aic, h]; rfl⟩

/-- Claim C4 (amended): compute_aic performs no upfront input
validation.  It does fail on an empty candidate list (np.argmin of an
empty sequence) and on a candidate map shorter than X (an out-of-range
lookup), but these failures happen during the labelling pass, after the
centroid computation, not before any numeric work; and an empty input
with N = 0 (likewise d = 0) is processed silently instead of being
rejected. -/
theorem C4_no_validation :
    (∀ (X : List (List ℚ)) (ne cand : List (List ℕ)) (i : ℕ), i < X.length →
      cand.get? i = some [] → computeStats X ne cand = none) ∧
    (∀ (X : List (List ℚ)) (ne cand : List (List ℕ)) (i : ℕ), i < X.length →
      cand.get? i = none → computeStats X ne cand = none) ∧
    (∀ cand : List (List ℕ), computeStats [] [] cand = some ⟨0, 0, [], [], 0, 0⟩) := by
  refine ⟨?_, ?_, ?_⟩
  · intro X ne cand i hi hcand
    by_contra hcontra
    obtain ⟨s, hs⟩ := Option.ne_none_iff_exists'.mp hcontra
    obtain ⟨centroids, labels, hcent, hlabels, -⟩ := computeStats_eq_some.mp hs
    have hget := resolveLabels_getD hlabels hi
    rw [hcand] at hget
    simp [resolveLabel, mapOpt, argminIdx] at hget
  · intro X ne cand i hi hcand
    by_contra hcontra
    obtain ⟨s, hs⟩ := Option.ne_none_iff_exists'.mp hcontra
    obtain ⟨centroids, labels, hcent, hlabels, -⟩ := computeStats_eq_some.mp hs
    have hget := resolveLabels_getD hlabels hi
    rw [hcand] at hget
    simp at hget
  · intro cand
    norm_num [computeStats, softCentroids, resolveLabels, scoreStats, mapOpt, dims,
      buildClusters, rawClusters, insertAll]

/-- Claim C4, witness: a point whose candidate list is empty makes the
routine fail, while an empty data set is silently scored. -/
theorem C4_witness :
    computeStats [[(0 : ℚ)]] [] [[]] = none ∧
    computeStats ([] : List (List ℚ)) [] [[0]] = some ⟨0, 0, [], [], 0, 0⟩ :=
  ⟨C4_no_validation.1 [[(0 : ℚ)]] [] [[]] 0 (by decide) (by decide),
    C4_no_validation.2.2 [[0]]⟩

/-- Claim C5: when the minimum distance over a point's candidate list is
attained at two or more positions (the distances here are the squared
Euclidean distances, whose order and ties agree with the norms used in
the source because the square root is strictly monotone), the Resolver
assigns the candidate at the earliest such position j1: the hypotheses
say position j1 attains the minimum, a later position j2 ties with it,
and every earlier position is strictly worse. -/
theorem C5_tie_break (xi : List ℚ) (centroids : List (List ℚ)) (poss : List ℕ)
    (dists : List ℚ)
    (hd : mapOpt (fun nid => (centroids.get? nid).map (fun c => distSq xi c)) poss =
      some dists)
    (j1 j2 : ℕ) (hlt : j1 < j2) (hj2 : j2 < dists.length)
    (htie : dists.getD j1 0 = dists.getD j2 0)
    (hmin : ∀ j < dists.length, dists.getD j1 0 ≤ dists.getD j 0)
    (hfirst : ∀ j < j1, dists.getD j1 0 < dists.getD j 0) :
    resolveLabel xi centroids poss = poss.get? j1 := by
  have hlen : dists.length = poss.length := mapOpt_length hd
  have hlen2 : ¬ poss.length = 1 := by omega
  rw [resolveLabel, if_neg hlen2, hd, Option.some_bind,
    argminIdx_first (by omega) hmin hfirst, Option.some_bind]

/-- Claim C5, witness: the point 1 at the midpoint of the centroids 0 and
2 with candidates [0, 1] resolves to candidate 0 (spec scenario 3). -/
theorem C5_witness :
    resolveLabel [(1 : ℚ)] [[0], [2]] [0, 1] = ([0, 1] : List ℕ).get? 0 :=
  C5_tie_break [(1 : ℚ)] [[0], [2]] [0, 1] [1, 1]
    (by norm_num [mapOpt, distSq]) 0 1 (by norm_num) (by norm_num)
    (by norm_num)
    (by
      intro j hj
      simp only [List.length_cons, List.length_nil] at hj
      interval_cases j <;> norm_num)
    (by intro j hj; omega)

/-- Claim C7: the single-candidate shortcut agrees with the general
nearest-centroid rule whenever the candidate identifiers index into the
centroid table, and a singleton candidate list always resolves to its
sole entry. -/
theorem C7_shortcut_eq_general :
    (∀ (xi : List ℚ) (centroids : List (List ℚ)) (poss : List ℕ),
      (∀ id ∈ poss, id < centroids.length) →
        resolveLabel xi centroids poss = resolveLabelGeneral xi centroids poss) ∧
    (∀ (xi : List ℚ) (centroids : List (List ℚ)) (c : ℕ),
      resolveLabel xi centroids [c] = some c) := by
  constructor
  · intro xi centroids poss hids
    by_cases h1 : poss.length = 1
    · cases poss with
      | nil => simp at h1
      | cons p ps =>
        have hps : ps = [] := by
          simpa [List.length_eq_zero] using h1
        subst hps
        have hcg : centroids[p]? = some (centroids.get ⟨p, hids p (by simp)⟩) := by
          rw [← List.get?_eq_getElem?]
          exact List.get?_eq_get _
        rw [resolveLabel, if_pos h1, resolveLabelGeneral]
        simp [mapOpt, hcg, argminIdx, argminAux]
    · rw [resolveLabel, if_neg h1, resolveLabelGeneral]
  · intro xi centroids c
    rfl

/-- Claim C7, witness: a singleton candidate list, resolved by the
shortcut and by the general rule, with the same result. -/
theorem C7_witness :
    resolveLabel [(1 : ℚ)] [[0], [2]] [1] = resolveLabelGeneral [(1 : ℚ)] [[0], [2]] [1] :=
  C7_shortcut_eq_general.1 [(1 : ℚ)] [[0], [2]] [1] (by decide)

/-- Claim C6: every resolved label is one of the identifiers offered for
that point in its candidate list. -/
theorem C6_labels_mem {X : List (List ℚ)} {ne cand : List (List ℕ)} {s : Stats}
    (h : computeStats X ne cand = some s) :
    ∀ i < X.length, s.labels.getD i 0 ∈ cand.getD i [] := by
  obtain ⟨centroids, labels, hcent, hlabels, hscore⟩ := computeStats_eq_some.mp h
  obtain ⟨sel, hsel, rfl⟩ := scoreStats_eq_some.mp hscore
  intro i hi
  have hget := resolveLabels_getD hlabels hi
  rw [Option.bind_eq_some] at hget
  obtain ⟨poss, hposs, hres⟩ := hget
  have hpossD : cand.getD i [] = poss := by
    rw [List.getD_eq_getElem?_getD, ← List.get?_eq_getElem?, hposs]
    rfl
  rw [hpossD]
  exact resolveLabel_mem hres

/-- Claim C6, witness at scenario 2, point 1. -/
theorem C6_witness :
    (⟨4, 1, [0, 0, 1, 1], [2, 2], 2, 1/2⟩ : Stats).labels.getD 1 0 ∈
      ([[0], [0], [1], [1]] : List (List ℕ)).getD 1 [] :=
  @C6_labels_mem [[0], [1], [9], [10]] [[0, 1], [2, 3]] [[0], [0], [1], [1]]
    ⟨4, 1, [0, 0, 1, 1], [2, 2], 2, 1/2⟩
    (by norm_num [computeStats, softCentroids, resolveLabels, scoreStats,
      mapOpt, dims, meanRows, vecAdd, distSq, resolveLabel, argminIdx, argminAux,
      buildClusters, rawClusters, insertAll, addPoint, extendTo, List.range_succ])
    1 (by norm_num)

/-- Claim C9: candidate cell identifiers are used directly as indices
into the node/centroid table, so compute_aic is total exactly under the
unstated precondition that every identifier is below the number of nodes:
with the precondition (and valid shapes) it returns a value, and an
identifier at or beyond the table length makes it fail instead of
returning a score. -/
theorem C9_ids_precondition :
    (∀ (X : List (List ℚ)) (ne cand : List (List ℕ)),
      ValidInput X ne cand → IdsInRange ne cand →
        (computeStats X ne cand).isSome = true) ∧
    (∀ (X : List (List ℚ)) (ne cand : List (List ℕ)) (i id : ℕ),
      i < X.length → id ∈ cand.getD i [] → ne.length ≤ id →
        computeStats X ne cand = none) := by
  constructor
  · intro X ne cand hv hid
    obtain ⟨s, hs⟩ := computeStats_isSome hv hid
    rw [hs]
    rfl
  · intro X ne cand i id hi hm hb
    exact computeStats_none_of_badId hi hm hb

/-- Claim C9, witness: scenario 2 is in range and scored; replacing the
first candidate identifier by 5 (with only two nodes) makes the routine
fail. -/
theorem C9_witness :
    (computeStats [[0], [1], [9], [10]] [[0, 1], [2, 3]] [[0], [0], [1], [1]]).isSome
      = true ∧
    computeStats [[0], [1], [9], [10]] [[0, 1], [2, 3]] [[5], [0], [1], [1]] = none :=
  ⟨C9_ids_precondition.1 [[0], [1], [9], [10]] [[0, 1], [2, 3]] [[0], [0], [1], [1]]
      (by decide) (by decide),
    C9_ids_precondition.2 [[0], [1], [9], [10]] [[0, 1], [2, 3]] [[5], [0], [1], [1]]
      0 5 (by decide) (by decide) (by decide)⟩

/-- Claim C1, counterexample: at X = [[0],[2],[3]] with nodes [[0,1],[1,2]]
and candidate lists [[0],[0,1],[1]], the hard labels are [0,1,1]; the code
computes sigma_sq = 3/2 against the soft node centroids [1] and [5/2],
while the claim's recomputed hard-partition centroids [0] and [5/2] give
1/2. -/
theorem C1_counterexample :
    computeStats [[0], [2], [3]] [[0, 1], [1, 2]] [[0], [0, 1], [1]] =
      some ⟨3, 1, [0, 1, 1], [1, 2], 2, 3/2⟩ ∧
    sigmaSqSpec [[0], [2], [3]] [0, 1, 1] = 1/2 ∧ ((3 : ℚ)/2) ≠ 1/2 := by
  refine ⟨?_, ?_, by norm_num⟩
  · norm_num [computeStats, softCentroids, resolveLabels, scoreStats, mapOpt, dims,
      meanRows, vecAdd, distSq, resolveLabel, argminIdx, argminAux, buildClusters,
      rawClusters, insertAll, addPoint, extendTo, List.range_succ]
  · norm_num [sigmaSqSpec, hardCentroid, fiberFrom, meanRows, vecAdd, distSq, dims,
      buildClusters, rawClusters, insertAll, addPoint, extendTo, List.range_succ]

/-- Claim C1 (amended): the pooled variance equals the sum over all
points of the squared Euclidean distance from the point to the soft
centroid of its resolved node (the node centroid of step 1, indexed by
the hard label), divided by d * (N - k). -/
theorem C1_sigma_sq_soft {X : List (List ℚ)} {ne cand : List (List ℕ)}
    {s : Stats} (h : computeStats X ne cand = some s) :
    ∃ centroids, softCentroids X ne = some centroids ∧
      s.sigma_sq = (∑ i ∈ Finset.range X.length,
          distSq (X.getD i []) (centroids.getD (s.labels.getD i 0) [])) /
        ((dims X : ℚ) * ((X.length : ℚ) - (s.k : ℚ))) := by
  obtain ⟨centroids, labels, hcent, hlabels, hscore⟩ := computeStats_eq_some.mp h
  have hlen := resolveLabels_length hlabels
  have hs := scoreStats_sigma_sq hscore hlen
  obtain ⟨sel, hsel, rfl⟩ := scoreStats_eq_some.mp hscore
  exact ⟨centroids, hcent, by simpa using hs⟩

/-- Claim C1, witness for the amended theorem at scenario 2. -/
theorem C1_witness :
    ∃ centroids, softCentroids [[0], [1], [9], [10]] [[0, 1], [2, 3]] = some centroids ∧
      (⟨4, 1, [0, 0, 1, 1], [2, 2], 2, 1/2⟩ : Stats).sigma_sq =
        (∑ i ∈ Finset.range ([[0], [1], [9], [10]] : List (List ℚ)).length,
            distSq (([[0], [1], [9], [10]] : List (List ℚ)).getD i [])
              (centroids.getD
                ((⟨4, 1, [0, 0, 1, 1], [2, 2], 2, 1/2⟩ : Stats).labels.getD i 0) [])) /
          ((dims [[0], [1], [9], [10]] : ℚ) *
            ((([[0], [1], [9], [10]] : List (List ℚ)).length : ℚ) -
              ((⟨4, 1, [0, 0, 1, 1], [2, 2], 2, 1/2⟩ : Stats).k : ℚ))) :=
  @C1_sigma_sq_soft [[0], [1], [9], [10]] [[0, 1], [2, 3]] [[0], [0], [1], [1]]
    ⟨4, 1, [0, 0, 1, 1], [2, 2], 2, 1/2⟩
    (by norm_num [computeStats, softCentroids, resolveLabels, scoreStats, mapOpt, dims,
      meanRows, vecAdd, distSq, resolveLabel, argminIdx, argminAux, buildClusters,
      rawClusters, insertAll, addPoint, extendTo, List.range_succ])

/-- Claim C2: the returned score is exactly
2 * sum_j n_j ln n_j - 2 N ln N - N d ln(2 pi sigma_sq) - d (N - k) - 2 k (d + 1)
with natural logarithms, and at the spec's scenario 2 the hard labels are
[0,0,1,1], sigma_sq = 1/2 and the score is the value of that formula at
N = 4, d = 1, k = 2, cluster sizes [2,2]. -/
theorem C2_aic_formula :
    (∀ (X : List (List ℚ)) (ne cand : List (List ℕ)) (s : Stats),
      computeStats X ne cand = some s →
        compute_aic X ne cand = some (
          2 * ((s.sizes.map (fun n : ℕ => (n : ℝ) * Real.log n)).sum)
            - 2 * s.N * Real.log s.N
            - s.N * s.d * Real.log (2 * Real.pi * (s.sigma_sq : ℝ))
            - s.d * ((s.N : ℝ) - (s.k : ℝ))
            - 2 * s.k * ((s.d : ℝ) + 1))) ∧
    computeStats [[0], [1], [9], [10]] [[0, 1], [2, 3]] [[0], [0], [1], [1]] =
      some ⟨4, 1, [0, 0, 1, 1], [2, 2], 2, 1/2⟩ ∧
    compute_aic [[0], [1], [9], [10]] [[0, 1], [2, 3]] [[0], [0], [1], [1]] =
      some (2 * ((2 : ℝ) * Real.log 2 + 2 * Real.log 2)
        - 2 * 4 * Real.log 4
        - 4 * 1 * Real.log (2 * Real.pi * (1/2 : ℝ))
        - 1 * ((4 : ℝ) - 2)
        - 2 * 2 * ((1 : ℝ) + 1)) := by
  have hstats : computeStats [[0], [1], [9], [10]] [[0, 1], [2, 3]] [[0], [0], [1], [1]] =
      some ⟨4, 1, [0, 0, 1, 1], [2, 2], 2, 1/2⟩ := by
    norm_num [computeStats, softCentroids, resolveLabels, scoreStats, mapOpt, dims,
      meanRows, vecAdd, distSq, resolveLabel, argminIdx, argminAux, buildClusters,
      rawClusters, insertAll, addPoint, extendTo, List.range_succ]
  refine ⟨?_, hstats, ?_⟩
  · intro X ne cand s h
    rw [compute_aic, h, Option.map_some']
    rfl
  · rw [compute_aic, hstats, Option.map_some', Option.some_inj, aicOf]
    push_cast
    norm_num

/-- Claim C2, witness: the general formula applied at scenario 2. -/
theorem C2_witness :
    compute_aic [[0], [1], [9], [10]] [[0, 1], [2, 3]] [[0], [0], [1], [1]] =
      some (2 * (((⟨4, 1, [0, 0, 1, 1], [2, 2], 2, 1/2⟩ : Stats).sizes.map
            (fun n : ℕ => (n : ℝ) * Real.log n)).sum)
        - 2 * (⟨4, 1, [0, 0, 1, 1], [2, 2], 2, 1/2⟩ : Stats).N *
            Real.log (⟨4, 1, [0, 0, 1, 1], [2, 2], 2, 1/2⟩ : Stats).N
        - (⟨4, 1, [0, 0, 1, 1], [2, 2], 2, 1/2⟩ : Stats).N *
            (⟨4, 1, [0, 0, 1, 1], [2, 2], 2, 1/2⟩ : Stats).d *
            Real.log (2 * Real.pi *
              ((⟨4, 1, [0, 0, 1, 1], [2, 2], 2, 1/2⟩ : Stats).sigma_sq : ℝ))
        - (⟨4, 1, [0, 0, 1, 1], [2, 2], 2, 1/2⟩ : Stats).d *
            (((⟨4, 1, [0, 0, 1, 1], [2, 2], 2, 1/2⟩ : Stats).N : ℝ) -
              ((⟨4, 1, [0, 0, 1, 1], [2, 2], 2, 1/2⟩ : Stats).k : ℝ))
        - 2 * (⟨4, 1, [0, 0, 1, 1], [2, 2], 2, 1/2⟩ : Stats).k *
            (((⟨4, 1, [0, 0, 1, 1], [2, 2], 2, 1/2⟩ : Stats).d : ℝ) + 1)) :=
  C2_aic_formula.1 [[0], [1], [9], [10]] [[0, 1], [2, 3]] [[0], [0], [1], [1]]
    ⟨4, 1, [0, 0, 1, 1], [2, 2], 2, 1/2⟩
    (by norm_num [computeStats, softCentroids, resolveLabels, scoreStats, mapOpt, dims,
      meanRows, vecAdd, distSq, resolveLabel, argminIdx, argminAux, buildClusters,
      rawClusters, insertAll, addPoint, extendTo, List.range_succ])

/-- Claim C8, counterexample: swapping the two label values of [0,0,1]
(an injective renaming, leaving the partition of the points unchanged)
changes the score, because sigma_sq is computed against the centroid
table indexed by the raw label value: it moves from 1/2 to 29/4. -/
theorem C8_counterexample :
    score [[0], [1], [2]] [[1/2], [2]] (([0, 0, 1] : List ℕ).map (fun l => 1 - l)) ≠
      score [[0], [1], [2]] [[1/2], [2]] [0, 0, 1] := by
  have hmap : ([0, 0, 1] : List ℕ).map (fun l => 1 - l) = [1, 1, 0] := by decide
  have hs1 : scoreStats [[0], [1], [2]] [[1/2], [2]] [1, 1, 0] =
      some ⟨3, 1, [1, 1, 0], [1, 2], 2, 29/4⟩ := by
    norm_num [scoreStats, mapOpt, dims, distSq, buildClusters, rawClusters,
      insertAll, addPoint, extendTo, List.replicate, List.set]
  have hs2 : scoreStats [[0], [1], [2]] [[1/2], [2]] [0, 0, 1] =
      some ⟨3, 1, [0, 0, 1], [2, 1], 2, 1/2⟩ := by
    norm_num [scoreStats, mapOpt, dims, distSq, buildClusters, rawClusters,
      insertAll, addPoint, extendTo, List.replicate, List.set]
  rw [hmap, score, score, hs1, hs2, Option.map_some', Option.map_some', Ne,
    Option.some_inj]
  intro heq
  have hlog : Real.log (2 * Real.pi * (1/2 : ℝ)) < Real.log (2 * Real.pi * (29/4 : ℝ)) := by
    have hπ := Real.pi_pos
    apply Real.log_lt_log
    · nlinarith
    · nlinarith
  rw [aicOf, aicOf] at heq
  push_cast at heq
  norm_num at heq
  nlinarith [heq, hlog]

/-- Claim C8, witness for the amended theorem: the same swap of label
values with the centroid table re-indexed accordingly leaves the score
unchanged. -/
theorem C8_witness :
    score [[0], [1], [2]] [[2], [1/2]] (([0, 0, 1] : List ℕ).map (fun l => 1 - l)) =
      score [[0], [1], [2]] [[1/2], [2]] [0, 0, 1] :=
  C8_relabel_consistent (by decide)
    (by intro l hl; fin_cases hl <;> rfl)

/-- Claim C10: the cluster list built by compute_aic is a partition of
the point indices 0 .. N-1: the retained clusters are pairwise disjoint
and non-empty, the cluster sizes sum to N, and hence 1 <= k <= N whenever
N >= 1. -/
theorem C10_partition {X : List (List ℚ)} {ne cand : List (List ℕ)} {s : Stats}
    (h : computeStats X ne cand = some s) :
    s.sizes.sum = s.N ∧
    List.Pairwise (fun c c2 => ∀ i ∈ c, i ∉ c2) (buildClusters s.labels) ∧
    (∀ c ∈ buildClusters s.labels, c ≠ []) ∧
    (1 ≤ s.N → 1 ≤ s.k ∧ s.k ≤ s.N) := by
  obtain ⟨centroids, labels, hcent, hlabels, hscore⟩ := computeStats_eq_some.mp h
  have hlen := resolveLabels_length hlabels
  obtain ⟨sel, hsel, rfl⟩ := scoreStats_eq_some.mp hscore
  refine ⟨?_, pairwise_disjoint_buildClusters labels,
    fun c hc => ne_nil_of_mem_buildClusters hc, ?_⟩
  · show ((buildClusters labels).map List.length).sum = X.length
    rw [buildClusters_sizes_sum, hlen]
  · intro hN
    have hN2 : 1 ≤ X.length := hN
    constructor
    · show 1 ≤ (buildClusters labels).length
      have hlne : labels ≠ [] := by
        intro hl
        rw [hl] at hlen
        simp at hlen
        omega
      exact buildClusters_length_pos hlne
    · show (buildClusters labels).length ≤ X.length
      calc (buildClusters labels).length ≤ labels.length := buildClusters_length_le labels
        _ = X.length := hlen

/-- Claim C10, witness at scenario 2. -/
theorem C10_witness :
    (⟨4, 1, [0, 0, 1, 1], [2, 2], 2, 1/2⟩ : Stats).sizes.sum =
      (⟨4, 1, [0, 0, 1, 1], [2, 2], 2, 1/2⟩ : Stats).N ∧
    List.Pairwise (fun c c2 => ∀ i ∈ c, i ∉ c2)
      (buildClusters (⟨4, 1, [0, 0, 1, 1], [2, 2], 2, 1/2⟩ : Stats).labels) ∧
    (∀ c ∈ buildClusters (⟨4, 1, [0, 0, 1, 1], [2, 2], 2, 1/2⟩ : Stats).labels, c ≠ []) ∧
    (1 ≤ (⟨4, 1, [0, 0, 1, 1], [2, 2], 2, 1/2⟩ : Stats).N →
      1 ≤ (⟨4, 1, [0, 0, 1, 1], [2, 2], 2, 1/2⟩ : Stats).k ∧
        (⟨4, 1, [0, 0, 1, 1], [2, 2], 2, 1/2⟩ : Stats).k ≤
          (⟨4, 1, [0, 0, 1, 1], [2, 2], 2, 1/2⟩ : Stats).N) :=
  @C10_partition [[0], [1], [9], [10]] [[0, 1], [2, 3]] [[0], [0], [1], [1]]
    ⟨4, 1, [0, 0, 1, 1], [2, 2], 2, 1/2⟩
    (by norm_num [computeStats, softCentroids,
      resolveLabels, scoreStats, mapOpt, dims, meanRows, vecAdd, distSq, resolveLabel,
      argminIdx, argminAux, buildClusters, rawClusters, insertAll, addPoint, extendTo,
      List.range_succ])

end AicScore
